import Mathlib

/-!
Shallow embedding of the length-aware token batcher of `src/spring_amr/dataset.py`
(class `AMRDatasetTokenBatcherAndLoader`, the collation helper `to_tensor`, and the
per-example record access of `AMRDataset`).

Modelling conventions:
* Tensors of token ids are `List Int`; a dataset stores the per-example tokenized
  sentence (`tokenized`) and linearized graph (`linearized`) sequences, so the
  "primary length" of example `i` is `(tokenized[i]).length` and its
  "bucketing length" is `(linearized[i]).length`, exactly the quantities
  `s.size(0)` and `len(x)` read by the Python code.
* `random.shuffle` results are passed in as explicit lists (`shuffled`,
  `epochShuffled`); theorems that depend on them carry a `Perm` hypothesis
  stating that they are permutations of what the code shuffles in place.
* Devices are opaque naturals; `.to(device)` does not change tensor values, so
  the device is recorded as a field of the collated batch.
* The generator `sampler` is modelled as the full (finite) list of groups it
  yields; popping from the end of the Python list is processing the reversed
  id list front to back.
-/

namespace SpringAMR

/-- The per-example storage of `AMRDataset` (dataset.py lines 28-111) that the
batcher reads: the tokenized sentence tensors (`self.tokenized`), the linearized
graph tensors (`self.linearized`) and the tokenizer's pad token id.  Fields not
consulted by the batcher/collator claims (sentences, graphs, en/teacher copies)
are omitted. -/
structure AMRDataset where
  tokenized : List (List Int)
  linearized : List (List Int)
  pad_token_id : Int
deriving DecidableEq

/-- `len(self.dataset)` (dataset.py lines 110-111); all per-example lists are
appended in lockstep, so the sentence count equals `tokenized.length`. -/
def AMRDataset.len (d : AMRDataset) : Nat := d.tokenized.length

/-- The record returned by `AMRDataset.__getitem__` (dataset.py lines 113-128),
restricted to the fields the loader claims mention: `sample['id'] = idx`,
`sample['tokenized_ids']`, `sample['linearized_graphs_ids']`. -/
structure Sample where
  id : Nat
  tokenized_ids : List Int
  linearized_graphs_ids : List Int
deriving DecidableEq

/-- `self.dataset[idx]` (dataset.py lines 113-128). -/
def AMRDataset.getItem (d : AMRDataset) (idx : Nat) : Sample :=
  { id := idx
    tokenized_ids := d.tokenized.getD idx []
    linearized_graphs_ids := d.linearized.getD idx [] }

/-- `torch.nn.utils.rnn.pad_sequence(tokenized, batch_first=True, padding_value=...)`:
each sequence is right-padded with `padding_value` to the maximum length. -/
def pad_sequence (tokenized : List (List Int)) (padding_value : Int) : List (List Int) :=
  tokenized.map
    (fun s => s ++ List.replicate ((tokenized.map List.length).foldr max 0 - s.length)
      padding_value)

/-- `to_tensor` (dataset.py lines 10-16), applied to the already-extracted
sequences `[s[key_value] for s in samples]`: the padded id matrix together with
the mask `torch.ne(input_ids, padding_value).to(torch.int64)` (1 where the
entry differs from the pad value, 0 where it equals it).  The `return_mask=False`
variant of the code returns just the first component. -/
def to_tensor (tokenized : List (List Int)) (padding_value : Int) :
    List (List Int) × List (List Nat) :=
  let input_ids := pad_sequence tokenized padding_value
  let attention_mask :=
    input_ids.map (fun row => row.map (fun v => if v = padding_value then (0 : Nat) else 1))
  (input_ids, attention_mask)

/-- The value of one collated batch (dataset.py lines 130-146): the `x` pair,
the `y` pair obtained by slicing the padded linearization (`batch[:, :-1]` and
`batch[:, 1:]`), the `extra['ids']` list, and the device every tensor was moved
to.  Auxiliary string/graph metadata and the en/teacher copies are omitted. -/
structure CollatedBatch where
  device : Nat
  input_ids : List (List Int)
  attention_mask : List (List Nat)
  decoder_input_ids : List (List Int)
  labels : List (List Int)
  ids : List Nat
deriving DecidableEq

/-- `AMRDataset.collate_fn` (dataset.py lines 130-146) in the training
configuration (linearized graphs present). -/
def AMRDataset.collate_fn (d : AMRDataset) (samples : List Sample) (device : Nat) :
    CollatedBatch :=
  let p := to_tensor (samples.map Sample.tokenized_ids) d.pad_token_id
  let batch := pad_sequence (samples.map Sample.linearized_graphs_ids) d.pad_token_id
  { device := device
    input_ids := p.1
    attention_mask := p.2
    decoder_input_ids := batch.map List.dropLast
    labels := batch.map (List.drop 1)
    ids := samples.map Sample.id }

/-- The loader object built by `AMRDatasetTokenBatcherAndLoader.__init__`
(dataset.py lines 150-156). -/
structure AMRDatasetTokenBatcherAndLoader where
  batch_size : Int
  dataset : AMRDataset
  device : Nat
  shuffle : Bool
  sort : Bool
deriving DecidableEq

/-- `__init__` (dataset.py lines 150-156): it merely stores its arguments; no
validation of any kind is performed. -/
def AMRDatasetTokenBatcherAndLoader.init (dataset : AMRDataset) (batch_size : Int)
    (device : Nat) (shuffle : Bool) (sort : Bool) : AMRDatasetTokenBatcherAndLoader :=
  { batch_size := batch_size, dataset := dataset, device := device,
    shuffle := shuffle, sort := sort }

/-- Bucketing length of example `idx`: `len(self.dataset.linearized[idx])`
(dataset.py line 199). -/
def exLen (linearized : List (List Int)) (idx : Nat) : Nat :=
  (linearized.getD idx []).length

/-- The id list fed to the greedy loop (dataset.py lines 171-179): `[0..n)`,
replaced by its shuffled permutation when `shuffle` is set, then (when `sort`
is set) stably sorted by `key=lambda x: -lengths[x]` where `lengths` comes from
the linearized field under shuffle and from the tokenized field otherwise.
Python's `list.sort` is a stable ascending sort by key, i.e. a stable sort with
comparator `lengths[b] ≤ lengths[a]`. -/
def samplerIds (d : AMRDataset) (shuffle sort : Bool) (shuffled : List Nat) : List Nat :=
  let ids : List Nat := if shuffle then shuffled else List.range d.len
  if sort then
    ids.mergeSort (fun a b =>
      decide (((if shuffle then d.linearized.map List.length
                else d.tokenized.map List.length).getD b 0) ≤
              ((if shuffle then d.linearized.map List.length
                else d.tokenized.map List.length).getD a 0)))
  else ids

/-- The running batch state of the greedy loop (dataset.py lines 181-184);
`discharge` (lines 186-195) resets every field to its zero. -/
structure BatchAcc where
  batch_longest : Nat
  batch_nexamps : Nat
  batch_ntokens : Nat
  batch_ids : List Nat
deriving DecidableEq

def BatchAcc.empty : BatchAcc := ⟨0, 0, 0, []⟩

/-- One iteration of the `while ids` loop (dataset.py lines 197-209) on the
popped id `idx`: first the conditional flush
`if cand_batch_ntokens > self.batch_size and batch_ids: yield discharge()`,
then the unconditional add, then the oversized-singleton flush
`if len(batch_ids) == 1 and batch_ntokens > self.batch_size: yield discharge()`.
Returns the groups yielded during this iteration and the state afterwards. -/
def samplerStep (batch_size : Int) (linearized : List (List Int)) (acc : BatchAcc)
    (idx : Nat) : List (List Nat) × BatchAcc :=
  let size := exLen linearized idx
  let cand_batch_ntokens := max size acc.batch_longest * (acc.batch_nexamps + 1)
  let flushed : List (List Nat) × BatchAcc :=
    if (cand_batch_ntokens : Int) > batch_size ∧ acc.batch_ids ≠ [] then
      ([acc.batch_ids], BatchAcc.empty)
    else ([], acc)
  let batch_longest := max flushed.2.batch_longest size
  let batch_nexamps := flushed.2.batch_nexamps + 1
  let batch_ntokens := batch_longest * batch_nexamps
  let batch_ids := flushed.2.batch_ids ++ [idx]
  if batch_ids.length = 1 ∧ (batch_ntokens : Int) > batch_size then
    (flushed.1 ++ [batch_ids], BatchAcc.empty)
  else
    (flushed.1, ⟨batch_longest, batch_nexamps, batch_ntokens, batch_ids⟩)

/-- The `while ids` loop (dataset.py lines 197-209) over the ids in pop order,
followed by the final flush `if batch_ids: yield discharge()` (lines 211-212). -/
def samplerLoop (batch_size : Int) (linearized : List (List Int)) :
    List Nat → BatchAcc → List (List Nat)
  | [], acc => if acc.batch_ids = [] then [] else [acc.batch_ids]
  | idx :: rest, acc =>
    (samplerStep batch_size linearized acc idx).1 ++
      samplerLoop batch_size linearized rest (samplerStep batch_size linearized acc idx).2

/-- `self.sampler()` (dataset.py lines 170-212) as the list of all yielded
groups.  `ids.pop()` removes the last element, so the loop consumes the
(possibly shuffled/sorted) id list in reverse. -/
def AMRDatasetTokenBatcherAndLoader.sampler (L : AMRDatasetTokenBatcherAndLoader)
    (shuffled : List Nat) : List (List Nat) :=
  samplerLoop L.batch_size L.dataset.linearized
    (samplerIds L.dataset L.shuffle L.sort shuffled).reverse BatchAcc.empty

/-- The eager part of `__iter__` (dataset.py lines 162-166): `self.sampler()` is
drained completely by the list comprehension
`it = [[self.dataset[s] for s in b] for b in it]`, and `random.shuffle(it)`
(modelled by the permutation `epochShuffled`) reorders the materialized list of
record groups when `self.shuffle` is set.  All of this happens when `__iter__`
is called, reading the loader's state at that moment. -/
def AMRDatasetTokenBatcherAndLoader.iterRecords (L : AMRDatasetTokenBatcherAndLoader)
    (shuffled : List Nat) (epochShuffled : List (List Sample)) : List (List Sample) :=
  let it := (L.sampler shuffled).map (fun b => b.map L.dataset.getItem)
  if L.shuffle then epochShuffled else it

/-- The lazy tail of `__iter__` (dataset.py line 167): the generator expression
`(self.dataset.collate_fn(b, device=self.device) for b in it)` collates batch
`k` only when it is consumed, reading `self.device` (and `self.dataset`) from
the loader state `Lnow` current at that moment, while the groups themselves come
from the already-materialized `records`. -/
def iterBatch (records : List (List Sample)) (Lnow : AMRDatasetTokenBatcherAndLoader)
    (k : Nat) : Option CollatedBatch :=
  (records.get? k).map (fun b => Lnow.dataset.collate_fn b Lnow.device)

/-- Longest bucketing length within a group of ids. -/
def groupLongest (linearized : List (List Int)) (g : List Nat) : Nat :=
  (g.map (exLen linearized)).foldr max 0

/-- Padded token cost of a group: longest bucketing length times member count. -/
def groupCost (linearized : List (List Int)) (g : List Nat) : Nat :=
  groupLongest linearized g * g.length

/-- Modelled from the spec: the unpadding operation of the collation round-trip
claim — keep exactly the positions of a row where the mask is 1, in order. -/
def maskSelect (row : List Int) (mask : List Nat) : List Int :=
  ((row.zip mask).filter (fun p => decide (p.2 = 1))).map Prod.fst

/-- Width of the padded matrix: maximum sequence length. -/
def padWidth (tokenized : List (List Int)) : Nat :=
  (tokenized.map List.length).foldr max 0

def accInv (B : Int) (lin : List (List Int)) (acc : BatchAcc) : Prop :=
  acc.batch_nexamps = acc.batch_ids.length ∧
  acc.batch_longest = groupLongest lin acc.batch_ids ∧
  (2 ≤ acc.batch_ids.length → ((groupCost lin acc.batch_ids : Nat) : Int) ≤ B)

def accInv4 (B : Int) (lin : List (List Int)) (acc : BatchAcc) : Prop :=
  ∀ i ∈ acc.batch_ids, ((exLen lin i : Nat) : Int) ≤ B

def scenarioDataset : AMRDataset :=
  ⟨[List.replicate 5 0, List.replicate 3 0, List.replicate 9 0],
   [List.replicate 5 0, List.replicate 3 0, List.replicate 9 0], 1⟩

def scenarioLoader : AMRDatasetTokenBatcherAndLoader :=
  AMRDatasetTokenBatcherAndLoader.init scenarioDataset 20 0 false false

def oversizedDataset : AMRDataset := ⟨[[0, 0, 0]], [[0, 0, 0]], 1⟩

def oversizedLoader : AMRDatasetTokenBatcherAndLoader :=
  AMRDatasetTokenBatcherAndLoader.init oversizedDataset 2 0 false false

def descBy (key : List Nat) (a b : Nat) : Bool := decide (key.getD b 0 ≤ key.getD a 0)

def c5Dataset : AMRDataset := ⟨[[0], [0]], [[0, 0], [0, 0]], 1⟩

def c8Dataset : AMRDataset := ⟨[[1, 2]], [[3]], 0⟩

def c8Loader : AMRDatasetTokenBatcherAndLoader :=
  AMRDatasetTokenBatcherAndLoader.init c8Dataset 10 0 false false

def c9Dataset : AMRDataset := ⟨[[1]], [[2]], 0⟩

def c9Loader : AMRDatasetTokenBatcherAndLoader :=
  AMRDatasetTokenBatcherAndLoader.init c9Dataset 10 0 true false

theorem samplerStep_join (B : Int) (lin : List (List Int)) (acc : BatchAcc) (idx : Nat) :
    (samplerStep B lin acc idx).1.flatten ++ (samplerStep B lin acc idx).2.batch_ids
      = acc.batch_ids ++ [idx] := by
  simp only [samplerStep]
  by_cases h1 : ((max (exLen lin idx) acc.batch_longest * (acc.batch_nexamps + 1) : Nat) : Int)
      > B ∧ acc.batch_ids ≠ []
  · simp only [if_pos h1]
    by_cases h2 : (BatchAcc.empty.batch_ids ++ [idx]).length = 1 ∧
        ((max BatchAcc.empty.batch_longest (exLen lin idx) *
          (BatchAcc.empty.batch_nexamps + 1) : Nat) : Int) > B
    · simp only [if_pos h2]
      simp [BatchAcc.empty]
    · simp only [if_neg h2]
      simp [BatchAcc.empty]
  · simp only [if_neg h1]
    by_cases h2 : (acc.batch_ids ++ [idx]).length = 1 ∧
        ((max acc.batch_longest (exLen lin idx) * (acc.batch_nexamps + 1) : Nat) : Int) > B
    · simp only [if_pos h2]
      have hnil : acc.batch_ids = [] := by
        rcases h2 with ⟨hl, -⟩
        cases h : acc.batch_ids with
        | nil => rfl
        | cons a t => rw [h] at hl; simp at hl
      simp [hnil, BatchAcc.empty]
    · simp only [if_neg h2]
      simp

theorem samplerLoop_join (B : Int) (lin : List (List Int)) :
    ∀ (l : List Nat) (acc : BatchAcc),
      (samplerLoop B lin l acc).flatten = acc.batch_ids ++ l
  | [], acc => by
    simp only [samplerLoop]
    by_cases h : acc.batch_ids = []
    · simp [h]
    · simp [h]
  | idx :: rest, acc => by
    simp only [samplerLoop, List.flatten_append]
    rw [samplerLoop_join B lin rest]
    rw [← List.append_assoc, samplerStep_join]
    simp

theorem sampler_flatten (L : AMRDatasetTokenBatcherAndLoader) (shuffled : List Nat) :
    (L.sampler shuffled).flatten = (samplerIds L.dataset L.shuffle L.sort shuffled).reverse := by
  rw [AMRDatasetTokenBatcherAndLoader.sampler, samplerLoop_join]
  rfl

theorem samplerStep_nonempty (B : Int) (lin : List (List Int)) (acc : BatchAcc) (idx : Nat) :
    ∀ g ∈ (samplerStep B lin acc idx).1, g ≠ [] := by
  simp only [samplerStep]
  by_cases h1 : ((max (exLen lin idx) acc.batch_longest * (acc.batch_nexamps + 1) : Nat) : Int)
      > B ∧ acc.batch_ids ≠ []
  · simp only [if_pos h1]
    split
    · intro g hg
      rcases List.mem_append.mp hg with h | h
      · simp only [List.mem_singleton] at h
        exact h ▸ h1.2
      · simp only [List.mem_singleton] at h
        subst h; simp [BatchAcc.empty]
    · intro g hg
      simp only [List.mem_singleton] at hg
      exact hg ▸ h1.2
  · simp only [if_neg h1]
    split
    · intro g hg
      simp only [List.nil_append, List.mem_singleton] at hg
      subst hg; simp
    · intro g hg
      simp at hg

end SpringAMR

namespace SpringAMR

theorem foldr_max_shift : ∀ (l : List Nat) (a : Nat), l.foldr max a = max (l.foldr max 0) a
  | [], a => by simp
  | b :: l, a => by
    simp only [List.foldr_cons]
    rw [foldr_max_shift l a, Nat.max_assoc]

theorem groupLongest_append (lin : List (List Int)) (g : List Nat) (i : Nat) :
    groupLongest lin (g ++ [i]) = max (groupLongest lin g) (exLen lin i) := by
  simp only [groupLongest, List.map_append, List.foldr_append, List.map_cons, List.map_nil,
    List.foldr_cons, List.foldr_nil]
  rw [foldr_max_shift]
  simp [Nat.max_comm]

theorem accInv_empty (B : Int) (lin : List (List Int)) : accInv B lin BatchAcc.empty := by
  refine ⟨rfl, rfl, ?_⟩
  intro h
  simp [BatchAcc.empty] at h

theorem samplerStep_inv (B : Int) (lin : List (List Int)) (acc : BatchAcc) (idx : Nat)
    (hacc : accInv B lin acc) :
    accInv B lin (samplerStep B lin acc idx).2 ∧
      ∀ g ∈ (samplerStep B lin acc idx).1, 2 ≤ g.length →
        ((groupCost lin g : Nat) : Int) ≤ B := by
  obtain ⟨hn, hl, hc⟩ := hacc
  simp only [samplerStep]
  by_cases h1 : ((max (exLen lin idx) acc.batch_longest * (acc.batch_nexamps + 1) : Nat) : Int)
      > B ∧ acc.batch_ids ≠ []
  · simp only [if_pos h1]
    by_cases h2 : (BatchAcc.empty.batch_ids ++ [idx]).length = 1 ∧
        ((max BatchAcc.empty.batch_longest (exLen lin idx) *
          (BatchAcc.empty.batch_nexamps + 1) : Nat) : Int) > B
    · simp only [if_pos h2]
      refine ⟨accInv_empty B lin, ?_⟩
      intro g hg hlen
      rcases List.mem_append.mp hg with h | h
      · simp only [List.mem_singleton] at h
        subst h; exact hc hlen
      · simp only [List.mem_singleton] at h
        subst h
        simp [BatchAcc.empty] at hlen
    · simp only [if_neg h2]
      refine ⟨⟨by simp [BatchAcc.empty], ?_, ?_⟩, ?_⟩
      · simp [BatchAcc.empty, groupLongest, exLen, Nat.max_comm]
      · intro h
        simp [BatchAcc.empty] at h
      · intro g hg hlen
        simp only [List.mem_singleton] at hg
        subst hg; exact hc hlen
  · simp only [if_neg h1]
    by_cases h2 : (acc.batch_ids ++ [idx]).length = 1 ∧
        ((max acc.batch_longest (exLen lin idx) * (acc.batch_nexamps + 1) : Nat) : Int) > B
    · simp only [if_pos h2]
      refine ⟨accInv_empty B lin, ?_⟩
      intro g hg hlen
      simp only [List.nil_append, List.mem_singleton] at hg
      subst hg
      rw [h2.1] at hlen
      exact absurd hlen (by omega)
    · simp only [if_neg h2]
      refine ⟨⟨by simp [hn], ?_, ?_⟩, ?_⟩
      · simp only [groupLongest_append, hl]
      · intro hlen
        simp only [List.length_append, List.length_singleton] at hlen
        have hne : acc.batch_ids ≠ [] := by
          intro h
          rw [h] at hlen
          simp at hlen
        have hcand : ((max (exLen lin idx) acc.batch_longest *
            (acc.batch_nexamps + 1) : Nat) : Int) ≤ B := by
          by_contra h
          exact h1 ⟨lt_of_not_le h, hne⟩
        simp only [groupCost, groupLongest_append, List.length_append, List.length_singleton]
        rw [← hl]
        have heq : max acc.batch_longest (exLen lin idx) * (acc.batch_ids.length + 1)
            = max (exLen lin idx) acc.batch_longest * (acc.batch_nexamps + 1) := by
          rw [Nat.max_comm, hn]
        rw [heq]
        exact hcand
      · intro g hg
        simp at hg

theorem samplerLoop_cost (B : Int) (lin : List (List Int)) :
    ∀ (l : List Nat) (acc : BatchAcc), accInv B lin acc →
      ∀ g ∈ samplerLoop B lin l acc, 2 ≤ g.length → ((groupCost lin g : Nat) : Int) ≤ B
  | [], acc => by
    intro hacc g hg hlen
    simp only [samplerLoop] at hg
    by_cases h : acc.batch_ids = []
    · simp [h] at hg
    · simp only [if_neg h, List.mem_singleton] at hg
      subst hg
      exact hacc.2.2 hlen
  | idx :: rest, acc => by
    intro hacc g hg hlen
    simp only [samplerLoop] at hg
    obtain ⟨hinv, hout⟩ := samplerStep_inv B lin acc idx hacc
    rcases List.mem_append.mp hg with h | h
    · exact hout g h hlen
    · exact samplerLoop_cost B lin rest _ hinv g h hlen

theorem samplerStep_inv4 (B : Int) (lin : List (List Int)) (acc : BatchAcc) (idx : Nat)
    (hacc : accInv4 B lin acc) :
    accInv4 B lin (samplerStep B lin acc idx).2 ∧
      ∀ g ∈ (samplerStep B lin acc idx).1,
        (∀ i ∈ g, ((exLen lin i : Nat) : Int) ≤ B) ∨ ∃ j, g = [j] := by
  simp only [samplerStep]
  by_cases h1 : ((max (exLen lin idx) acc.batch_longest * (acc.batch_nexamps + 1) : Nat) : Int)
      > B ∧ acc.batch_ids ≠ []
  · simp only [if_pos h1]
    by_cases h2 : (BatchAcc.empty.batch_ids ++ [idx]).length = 1 ∧
        ((max BatchAcc.empty.batch_longest (exLen lin idx) *
          (BatchAcc.empty.batch_nexamps + 1) : Nat) : Int) > B
    · simp only [if_pos h2]
      refine ⟨?_, ?_⟩
      · intro i hi
        simp [BatchAcc.empty] at hi
      · intro g hg
        rcases List.mem_append.mp hg with h | h
        · simp only [List.mem_singleton] at h
          subst h
          exact Or.inl hacc
        · simp only [List.mem_singleton] at h
          subst h
          exact Or.inr ⟨idx, by simp [BatchAcc.empty]⟩
    · simp only [if_neg h2]
      refine ⟨?_, ?_⟩
      · intro i hi
        simp only [BatchAcc.empty, List.nil_append, List.mem_singleton] at hi
        subst hi
        -- the singleton [idx] was kept, so its cost max(0,size)*1 = size is ≤ B
        have hsz : ¬ ((max BatchAcc.empty.batch_longest (exLen lin i) *
            (BatchAcc.empty.batch_nexamps + 1) : Nat) : Int) > B := by
          intro h
          exact h2 ⟨by simp [BatchAcc.empty], h⟩
        push_neg at hsz
        calc ((exLen lin i : Nat) : Int)
            = ((max BatchAcc.empty.batch_longest (exLen lin i) *
                (BatchAcc.empty.batch_nexamps + 1) : Nat) : Int) := by
              simp [BatchAcc.empty]
          _ ≤ B := hsz
      · intro g hg
        simp only [List.mem_singleton] at hg
        subst hg
        exact Or.inl hacc
  · simp only [if_neg h1]
    by_cases h2 : (acc.batch_ids ++ [idx]).length = 1 ∧
        ((max acc.batch_longest (exLen lin idx) * (acc.batch_nexamps + 1) : Nat) : Int) > B
    · simp only [if_pos h2]
      refine ⟨?_, ?_⟩
      · intro i hi
        simp [BatchAcc.empty] at hi
      · intro g hg
        simp only [List.nil_append, List.mem_singleton] at hg
        subst hg
        have hnil : acc.batch_ids = [] := by
          cases h : acc.batch_ids with
          | nil => rfl
          | cons a t =>
            rw [h] at h2
            simp at h2
        exact Or.inr ⟨idx, by rw [hnil]; rfl⟩
    · simp only [if_neg h2]
      refine ⟨?_, ?_⟩
      · intro i hi
        rcases List.mem_append.mp hi with h | h
        · exact hacc i h
        · simp only [List.mem_singleton] at h
          subst h
          -- either the previous batch was empty (kept singleton cost ≤ B via ¬h2),
          -- or cand ≤ B and size ≤ cand
          by_cases hnil : acc.batch_ids = []
          · have hsz : ¬ ((max acc.batch_longest (exLen lin i) *
                (acc.batch_nexamps + 1) : Nat) : Int) > B := by
              intro h
              exact h2 ⟨by rw [hnil]; rfl, h⟩
            push_neg at hsz
            have hle : (exLen lin i : Nat) ≤
                max acc.batch_longest (exLen lin i) * (acc.batch_nexamps + 1) :=
              le_trans (Nat.le_max_right _ _)
                (Nat.le_mul_of_pos_right _ (Nat.succ_pos _))
            exact le_trans (Int.ofNat_le.mpr hle) hsz
          · have hcand : ¬ ((max (exLen lin i) acc.batch_longest *
                (acc.batch_nexamps + 1) : Nat) : Int) > B := by
              intro h
              exact h1 ⟨h, hnil⟩
            push_neg at hcand
            have hle : (exLen lin i : Nat) ≤
                max (exLen lin i) acc.batch_longest * (acc.batch_nexamps + 1) :=
              le_trans (Nat.le_max_left _ _)
                (Nat.le_mul_of_pos_right _ (Nat.succ_pos _))
            exact le_trans (Int.ofNat_le.mpr hle) hcand
      · intro g hg
        simp at hg

theorem samplerLoop_singleton (B : Int) (lin : List (List Int)) :
    ∀ (l : List Nat) (acc : BatchAcc), accInv4 B lin acc →
      ∀ g ∈ samplerLoop B lin l acc,
        (∀ i ∈ g, ((exLen lin i : Nat) : Int) ≤ B) ∨ ∃ j, g = [j]
  | [], acc => by
    intro hacc g hg
    simp only [samplerLoop] at hg
    by_cases h : acc.batch_ids = []
    · simp [h] at hg
    · simp only [if_neg h, List.mem_singleton] at hg
      subst hg
      exact Or.inl hacc
  | idx :: rest, acc => by
    intro hacc g hg
    simp only [samplerLoop] at hg
    obtain ⟨hinv, hout⟩ := samplerStep_inv4 B lin acc idx hacc
    rcases List.mem_append.mp hg with h | h
    · exact hout g h
    · exact samplerLoop_singleton B lin rest _ hinv g h

theorem samplerLoop_nonempty (B : Int) (lin : List (List Int)) :
    ∀ (l : List Nat) (acc : BatchAcc), ∀ g ∈ samplerLoop B lin l acc, g ≠ []
  | [], acc => by
    intro g hg
    simp only [samplerLoop] at hg
    by_cases h : acc.batch_ids = []
    · simp [h] at hg
    · simp only [if_neg h, List.mem_singleton] at hg
      subst hg
      exact h
  | idx :: rest, acc => by
    intro g hg
    simp only [samplerLoop] at hg
    rcases List.mem_append.mp hg with h | h
    · exact samplerStep_nonempty B lin acc idx g h
    · exact samplerLoop_nonempty B lin rest _ g h

theorem samplerIds_perm (d : AMRDataset) (shuffle sort : Bool) (shuffled : List Nat)
    (hsh : shuffled.Perm (List.range d.len)) :
    (samplerIds d shuffle sort shuffled).Perm (List.range d.len) := by
  unfold samplerIds
  cases shuffle <;> cases sort <;> simp only [if_pos, if_neg, Bool.false_eq_true,
    if_false, if_true]
  · exact List.Perm.refl _
  · exact (List.mergeSort_perm _ _).trans (List.Perm.refl _)
  · exact hsh
  · exact (List.mergeSort_perm _ _).trans hsh

/-- C1: every group yielded by the sampler that contains more than one index has
`longest bucketing length in the group × number of indices in the group` at most
the configured token budget `batch_size`; only a singleton group may exceed it. -/
theorem c1_nonsingleton_within_budget (L : AMRDatasetTokenBatcherAndLoader)
    (shuffled : List Nat) (g : List Nat) (hg : g ∈ L.sampler shuffled)
    (hlen : 1 < g.length) :
    ((groupCost L.dataset.linearized g : Nat) : Int) ≤ L.batch_size :=
  samplerLoop_cost L.batch_size L.dataset.linearized _ _
    (accInv_empty L.batch_size L.dataset.linearized) g hg hlen

theorem c1_witness :
    [2, 1] ∈ scenarioLoader.sampler [] ∧ 1 < ([2, 1] : List Nat).length ∧
      ((groupCost scenarioDataset.linearized [2, 1] : Nat) : Int) ≤ scenarioLoader.batch_size :=
  ⟨by decide, by decide,
    c1_nonsingleton_within_budget scenarioLoader [] [2, 1] (by decide) (by decide)⟩

/-- C2: for every dataset (any size, including 0) and positive budget, the groups
yielded by the sampler concatenate to a permutation of `{0, ..., n-1}` (each index
exactly once), and every yielded group is non-empty. -/
theorem c2_sampler_partitions (L : AMRDatasetTokenBatcherAndLoader) (shuffled : List Nat)
    (hB : 0 < L.batch_size) (hsh : shuffled.Perm (List.range L.dataset.len)) :
    (L.sampler shuffled).flatten.Perm (List.range L.dataset.len) ∧
      ∀ g ∈ L.sampler shuffled, g ≠ [] := by
  refine ⟨?_, samplerLoop_nonempty _ _ _ _⟩
  rw [sampler_flatten]
  exact (List.reverse_perm _).trans
    (samplerIds_perm L.dataset L.shuffle L.sort shuffled hsh)

theorem c2_witness :
    0 < scenarioLoader.batch_size ∧
    ([0, 1, 2] : List Nat).Perm (List.range scenarioDataset.len) ∧
    ((scenarioLoader.sampler [0, 1, 2]).flatten.Perm (List.range scenarioDataset.len) ∧
      ∀ g ∈ scenarioLoader.sampler [0, 1, 2], g ≠ []) :=
  ⟨by decide, by decide, c2_sampler_partitions scenarioLoader [0, 1, 2] (by decide) (by decide)⟩

/-- C3: with shuffle and sort disabled, bucketing lengths [5, 3, 9] and budget 20,
the sampler yields exactly `[[2, 1], [0]]` (ids popped from the end of the list). -/
theorem c3_concrete_scenario : scenarioLoader.sampler [] = [[2, 1], [0]] := by decide

/-- C4: an example whose bucketing length alone exceeds the budget is flushed as a
singleton immediately after being added: any yielded group containing such an
example is exactly that one example, never grouped with any other. -/
theorem c4_oversized_example_alone (L : AMRDatasetTokenBatcherAndLoader)
    (shuffled : List Nat) (g : List Nat) (i : Nat) (hg : g ∈ L.sampler shuffled)
    (hi : i ∈ g) (hover : L.batch_size < ((exLen L.dataset.linearized i : Nat) : Int)) :
    g = [i] := by
  rcases samplerLoop_singleton L.batch_size L.dataset.linearized _ _
      (fun i hi => absurd hi (List.not_mem_nil i)) g hg with h | ⟨j, rfl⟩
  · exact absurd (h i hi) (not_le.mpr hover)
  · simp only [List.mem_singleton] at hi
    subst hi
    rfl

theorem c4_witness :
    [0] ∈ oversizedLoader.sampler [] ∧ 0 ∈ ([0] : List Nat) ∧
      oversizedLoader.batch_size < ((exLen oversizedDataset.linearized 0 : Nat) : Int) ∧
      ([0] : List Nat) = [0] :=
  ⟨by decide, by decide, by decide,
    c4_oversized_example_alone oversizedLoader [] [0] 0 (by decide) (by decide) (by decide)⟩

/-- C10: with shuffle disabled the sampler consults no random source: its output is
independent of the (modelled) random permutation, so two invocations with the same
dataset and budget yield exactly the same sequence of groups. -/
theorem c10_shuffle_disabled_deterministic (d : AMRDataset) (B : Int) (dev : Nat)
    (so : Bool) (r₁ r₂ : List Nat) :
    (AMRDatasetTokenBatcherAndLoader.init d B dev false so).sampler r₁ =
      (AMRDatasetTokenBatcherAndLoader.init d B dev false so).sampler r₂ := rfl

theorem descBy_trans (key : List Nat) : ∀ (a b c : Nat),
    descBy key a b → descBy key b c → descBy key a c := by
  intro a b c hab hbc
  simp only [descBy, decide_eq_true_eq] at *
  exact le_trans hbc hab

theorem descBy_total (key : List Nat) : ∀ (a b : Nat),
    descBy key a b || descBy key b a := by
  intro a b
  simp only [descBy, Bool.or_eq_true, decide_eq_true_eq]
  exact le_total _ _

theorem samplerIds_sort_shuffle_eq (d : AMRDataset) (shuffled : List Nat) :
    samplerIds d true true shuffled
      = shuffled.mergeSort (descBy (d.linearized.map List.length)) := rfl

theorem samplerIds_sort_noshuffle_eq (d : AMRDataset) (shuffled : List Nat) :
    samplerIds d false true shuffled
      = (List.range d.len).mergeSort (descBy (d.tokenized.map List.length)) := rfl

/-- C5: when sort is enabled the id list is stably sorted in descending order of a
length key, and the key depends on the shuffle flag: with shuffle enabled the key is
the bucketing (linearized) length, with shuffle disabled it is the primary
(tokenized) length.  Each half states: the sorted list is a permutation of its
input, it is pairwise non-increasing in the corresponding key, and the sort is
stable (any correctly-ordered pair of the input survives as a sublist). -/
theorem c5_sort_key_depends_on_shuffle (d : AMRDataset) (shuffled : List Nat) :
    ((samplerIds d true true shuffled).Perm shuffled ∧
      (samplerIds d true true shuffled).Pairwise
        (fun a b => (d.linearized.map List.length).getD b 0 ≤
          (d.linearized.map List.length).getD a 0) ∧
      (∀ a b : Nat, (d.linearized.map List.length).getD b 0 ≤
          (d.linearized.map List.length).getD a 0 →
        List.Sublist [a, b] shuffled → List.Sublist [a, b] (samplerIds d true true shuffled))) ∧
    ((samplerIds d false true shuffled).Perm (List.range d.len) ∧
      (samplerIds d false true shuffled).Pairwise
        (fun a b => (d.tokenized.map List.length).getD b 0 ≤
          (d.tokenized.map List.length).getD a 0) ∧
      (∀ a b : Nat, (d.tokenized.map List.length).getD b 0 ≤
          (d.tokenized.map List.length).getD a 0 →
        List.Sublist [a, b] (List.range d.len) → List.Sublist [a, b] (samplerIds d false true shuffled))) := by
  constructor
  · rw [samplerIds_sort_shuffle_eq]
    refine ⟨List.mergeSort_perm _ _, ?_, ?_⟩
    · have h := List.sorted_mergeSort (descBy_trans (d.linearized.map List.length))
        (descBy_total (d.linearized.map List.length)) shuffled
      exact h.imp (fun hab => by simpa [descBy] using hab)
    · intro a b hab hsub
      exact List.pair_sublist_mergeSort (descBy_trans _) (descBy_total _)
        (by simpa [descBy] using hab) hsub
  · rw [samplerIds_sort_noshuffle_eq]
    refine ⟨List.mergeSort_perm _ _, ?_, ?_⟩
    · have h := List.sorted_mergeSort (descBy_trans (d.tokenized.map List.length))
        (descBy_total (d.tokenized.map List.length)) (List.range d.len)
      exact h.imp (fun hab => by simpa [descBy] using hab)
    · intro a b hab hsub
      exact List.pair_sublist_mergeSort (descBy_trans _) (descBy_total _)
        (by simpa [descBy] using hab) hsub

theorem c5_witness :
    List.Sublist ([1, 0] : List Nat) (samplerIds c5Dataset true true [1, 0]) :=
  (c5_sort_key_depends_on_shuffle c5Dataset [1, 0]).1.2.2 1 0 (by decide) (by decide)

/-- C6 counterexample: constructing the loader with a token budget of 0 is NOT
rejected — `__init__` stores the budget unchanged and the object's sampler is
perfectly usable (on a one-example dataset it yields that example), contradicting
the claim that construction fails for a non-positive budget. -/
theorem c6_counterexample :
    (AMRDatasetTokenBatcherAndLoader.init oversizedDataset 0 0 false false).batch_size = 0 ∧
      (AMRDatasetTokenBatcherAndLoader.init oversizedDataset 0 0 false false).sampler []
        = [[0]] :=
  ⟨rfl, by decide⟩

/-- C6 amended: construction with a zero or negative token budget succeeds —
`__init__` performs no validation and stores the budget as given; the resulting
sampler is usable and still partitions the whole index set. -/
theorem c6_no_budget_validation (d : AMRDataset) (B : Int) (hB : B ≤ 0) (dev : Nat)
    (sh so : Bool) (shuffled : List Nat) (hsh : shuffled.Perm (List.range d.len)) :
    (AMRDatasetTokenBatcherAndLoader.init d B dev sh so).batch_size = B ∧
      ((AMRDatasetTokenBatcherAndLoader.init d B dev sh so).sampler shuffled).flatten.Perm
        (List.range d.len) := by
  refine ⟨rfl, ?_⟩
  rw [sampler_flatten]
  exact (List.reverse_perm _).trans (samplerIds_perm d sh so shuffled hsh)

theorem c6_witness :
    (-5 : Int) ≤ 0 ∧
      ((AMRDatasetTokenBatcherAndLoader.init oversizedDataset (-5) 0 false false).batch_size
          = -5 ∧
        ((AMRDatasetTokenBatcherAndLoader.init oversizedDataset (-5) 0 false
            false).sampler [0]).flatten.Perm (List.range oversizedDataset.len)) :=
  ⟨by decide,
    c6_no_budget_validation oversizedDataset (-5) (by decide) 0 false false [0] (by decide)⟩

theorem le_foldr_max : ∀ (l : List Nat) (x : Nat), x ∈ l → x ≤ l.foldr max 0
  | [], x, hx => absurd hx (List.not_mem_nil x)
  | b :: l, x, hx => by
    rcases List.mem_cons.mp hx with h | h
    · subst h
      exact Nat.le_max_left _ _
    · exact le_trans (le_foldr_max l x h) (Nat.le_max_right _ _)

theorem length_le_padWidth (ts : List (List Int)) (s : List Int) (hs : s ∈ ts) :
    s.length ≤ padWidth ts :=
  le_foldr_max (ts.map List.length) s.length (List.mem_map_of_mem List.length hs)

theorem padded_row_get (s : List Int) (pad : Int) (W : Nat) (hW : s.length ≤ W)
    (j : Nat) (hj : j < W) :
    (s ++ List.replicate (W - s.length) pad).get? j
      = some (if hjs : j < s.length then s.get ⟨j, hjs⟩ else pad) := by
  by_cases hjs : j < s.length
  · rw [List.get?_append hjs, dif_pos hjs, List.get?_eq_get hjs]
  · rw [List.get?_append_right (le_of_not_lt hjs), dif_neg hjs]
    have hlt : j - s.length < W - s.length := by omega
    simp [List.get?_eq_getElem?, List.getElem?_replicate, hlt]

theorem maskSelect_map_self (f : Int → Nat) : ∀ (row : List Int),
    maskSelect row (row.map f) = row.filter (fun v => decide (f v = 1))
  | [] => rfl
  | v :: row => by
    have ih := maskSelect_map_self f row
    simp only [maskSelect] at ih ⊢
    simp only [List.map_cons, List.zip_cons_cons, List.filter_cons]
    by_cases h : f v = 1
    · simp [h, ih]
    · simp [h, ih]

theorem padded_row_mask (s : List Int) (pad : Int) (W : Nat) (hW : s.length ≤ W)
    (hpad : pad ∉ s) (j : Nat) (hj : j < W) :
    (((s ++ List.replicate (W - s.length) pad).map
        (fun v => if v = pad then (0 : Nat) else 1)).getD j 0 = 1 ↔ j < s.length) := by
  have hrow := padded_row_get s pad W hW j hj
  have hmap : ((s ++ List.replicate (W - s.length) pad).map
      (fun v => if v = pad then (0 : Nat) else 1)).get? j
      = some (if (if hjs : j < s.length then s.get ⟨j, hjs⟩ else pad) = pad
          then (0 : Nat) else 1) := by
    rw [List.get?_map, hrow]
    rfl
  rw [List.getD_eq_get?, hmap]
  by_cases hjs : j < s.length
  · rw [dif_pos hjs]
    have hne : s.get ⟨j, hjs⟩ ≠ pad := by
      intro h
      exact hpad (h ▸ List.get_mem s j hjs)
    simp only [List.get_eq_getElem] at hne
    simp [hne, hjs]
  · rw [dif_neg hjs]
    simp [hjs]

theorem padded_row_roundtrip (s : List Int) (pad : Int) (W : Nat) (hpad : pad ∉ s) :
    maskSelect (s ++ List.replicate (W - s.length) pad)
      ((s ++ List.replicate (W - s.length) pad).map
        (fun v => if v = pad then (0 : Nat) else 1)) = s := by
  rw [maskSelect_map_self]
  rw [List.filter_append]
  have h1 : s.filter (fun v => decide ((if v = pad then (0 : Nat) else 1) = 1)) = s := by
    apply List.filter_eq_self.mpr
    intro v hv
    have : v ≠ pad := fun h => hpad (h ▸ hv)
    simp [this]
  have h2 : (List.replicate (W - s.length) pad).filter
      (fun v => decide ((if v = pad then (0 : Nat) else 1) = 1)) = [] := by
    apply List.filter_eq_nil.mpr
    intro v hv
    have : v = pad := List.eq_of_mem_replicate hv
    simp [this]
  rw [h1, h2, List.append_nil]

theorem getD_map_lt {α β : Type} (g : α → β) (l : List α) (i : Nat) (hi : i < l.length)
    (d : α) (d' : β) : (l.map g).getD i d' = g (l.getD i d) := by
  rw [List.getD_eq_get?, List.getD_eq_get?, List.get?_map]
  cases h : l.get? i with
  | none => exact absurd (List.get?_eq_none.mp h) (not_le.mpr hi)
  | some x => simp [h]

theorem getD_mem_of_lt (l : List (List Int)) (i : Nat) (hi : i < l.length) :
    l.getD i [] ∈ l := by
  rw [List.getD_eq_get?]
  cases h : l.get? i with
  | none => exact absurd (List.get?_eq_none.mp h) (not_le.mpr hi)
  | some x => simpa using List.get?_mem h

theorem pad_sequence_getD (samples : List (List Int)) (pad : Int) (i : Nat)
    (hi : i < samples.length) :
    (pad_sequence samples pad).getD i []
      = samples.getD i []
          ++ List.replicate (padWidth samples - (samples.getD i []).length) pad := by
  rw [pad_sequence]
  rw [getD_map_lt _ samples i hi []]
  rfl

theorem to_tensor_mask_getD (samples : List (List Int)) (pad : Int) (i : Nat)
    (hi : i < samples.length) :
    (to_tensor samples pad).2.getD i []
      = ((pad_sequence samples pad).getD i []).map
          (fun v => if v = pad then (0 : Nat) else 1) := by
  have hlen : i < (pad_sequence samples pad).length := by
    rw [pad_sequence, List.length_map]
    exact hi
  exact getD_map_lt (fun row => row.map (fun v => if v = pad then (0 : Nat) else 1))
    (pad_sequence samples pad) i hlen [] []

/-- C7 counterexample: for the input `[[7]]` with pad value 7 the mask criterion
`entry ≠ pad` fails the claimed positional invariant — `mask[0][0] = 0` even though
`0 < original_length(0) = 1` — and slicing row 0 to the mask-1 positions yields
`[]`, not the original `[7]`. -/
theorem c7_counterexample :
    ((((to_tensor [[(7 : Int)]] 7).2.getD 0 []).getD 0 0 = 0 ∧
        0 < ([(7 : Int)].length)) ∧
      maskSelect ((to_tensor [[(7 : Int)]] 7).1.getD 0 [])
        ((to_tensor [[(7 : Int)]] 7).2.getD 0 []) = []) := by
  decide

/-- C7 amended: for every list of N ≥ 1 non-empty integer sequences and every pad
value that does not occur inside any of the sequences, the collator's mask is 1
exactly at the positions within the row's original length, and selecting the
mask-1 positions of a padded row reproduces the original sequence exactly. -/
theorem c7_mask_iff_and_roundtrip (samples : List (List Int)) (pad : Int)
    (hN : samples ≠ []) (hrows : ∀ s ∈ samples, s ≠ [])
    (hpad : ∀ s ∈ samples, pad ∉ s) :
    (∀ i, i < samples.length → ∀ j, j < padWidth samples →
      (((to_tensor samples pad).2.getD i []).getD j 0 = 1 ↔
        j < (samples.getD i []).length)) ∧
    (∀ i, i < samples.length →
      maskSelect ((to_tensor samples pad).1.getD i [])
        ((to_tensor samples pad).2.getD i []) = samples.getD i []) := by
  have key : ∀ i, i < samples.length →
      (to_tensor samples pad).1.getD i []
        = samples.getD i []
            ++ List.replicate (padWidth samples - (samples.getD i []).length) pad := by
    intro i hi
    exact pad_sequence_getD samples pad i hi
  constructor
  · intro i hi j hj
    rw [to_tensor_mask_getD samples pad i hi, pad_sequence_getD samples pad i hi]
    exact padded_row_mask (samples.getD i []) pad (padWidth samples)
      (length_le_padWidth samples _ (getD_mem_of_lt samples i hi))
      (hpad _ (getD_mem_of_lt samples i hi)) j hj
  · intro i hi
    rw [to_tensor_mask_getD samples pad i hi, pad_sequence_getD samples pad i hi,
      key i hi]
    exact padded_row_roundtrip (samples.getD i []) pad (padWidth samples)
      (hpad _ (getD_mem_of_lt samples i hi))

theorem c7_witness :
    (∀ i, i < ([[(1 : Int), 2], [3]] : List (List Int)).length →
      ∀ j, j < padWidth [[(1 : Int), 2], [3]] →
      (((to_tensor [[(1 : Int), 2], [3]] 0).2.getD i []).getD j 0 = 1 ↔
        j < (([[(1 : Int), 2], [3]] : List (List Int)).getD i []).length)) ∧
    (∀ i, i < ([[(1 : Int), 2], [3]] : List (List Int)).length →
      maskSelect ((to_tensor [[(1 : Int), 2], [3]] 0).1.getD i [])
        ((to_tensor [[(1 : Int), 2], [3]] 0).2.getD i [])
        = ([[(1 : Int), 2], [3]] : List (List Int)).getD i []) :=
  c7_mask_iff_and_roundtrip [[(1 : Int), 2], [3]] 0 (by decide) (by decide) (by decide)

/-- C8 counterexample: `__iter__`'s final stage is a lazy generator expression that
reads `self.device` when each batch is collated, so reassigning `device` DOES take
effect retroactively on an in-flight iterator: a pass started while the loader's
device was 0 produces, after the device is reassigned to 1, a batch on device 1. -/
theorem c8_counterexample :
    c8Loader.device = 0 ∧
      (iterBatch (c8Loader.iterRecords [] [])
        (AMRDatasetTokenBatcherAndLoader.init c8Dataset 10 1 false false) 0).map
        CollatedBatch.device = some 1 :=
  ⟨rfl, rfl⟩

/-- C8 amended: `batch_size` is consumed entirely when `__iter__` is called (the
sampler is drained eagerly by the list comprehension), so reassigning it affects
only the next pass and the composition of in-flight batches never depends on the
loader state current at consumption time; `device`, however, is read afresh at
each batch's collation, so the device of an in-flight batch is the loader's
device at the moment that batch is consumed. -/
theorem c8_mutable_attribute_semantics :
    (∀ (d : AMRDataset) (B : Int) (dev : Nat) (so : Bool) (sh : List Nat)
        (eps : List (List Sample)),
      (AMRDatasetTokenBatcherAndLoader.init d B dev false so).iterRecords sh eps
        = ((AMRDatasetTokenBatcherAndLoader.init d B dev false so).sampler sh).map
            (fun b => b.map d.getItem)) ∧
    (∀ (records : List (List Sample)) (L₁ L₂ : AMRDatasetTokenBatcherAndLoader) (k : Nat),
      (iterBatch records L₁ k).map CollatedBatch.ids
        = (iterBatch records L₂ k).map CollatedBatch.ids) ∧
    (∀ (records : List (List Sample)) (Lnow : AMRDatasetTokenBatcherAndLoader) (k : Nat)
        (b : CollatedBatch), iterBatch records Lnow k = some b → b.device = Lnow.device) := by
  refine ⟨fun d B dev so sh eps => rfl, ?_, ?_⟩
  · intro records L₁ L₂ k
    simp only [iterBatch, Option.map_map]
    cases records.get? k <;> rfl
  · intro records Lnow k b hb
    simp only [iterBatch] at hb
    cases h : records.get? k with
    | none => rw [h] at hb; simp at hb
    | some g =>
      rw [h] at hb
      simp only [Option.map_some', Option.some_inj] at hb
      rw [← hb]
      rfl

theorem c8_witness :
    (AMRDataset.collate_fn c8Dataset [c8Dataset.getItem 0] 7).device
      = (AMRDatasetTokenBatcherAndLoader.init c8Dataset 10 7 false false).device :=
  c8_mutable_attribute_semantics.2.2 [[c8Dataset.getItem 0]]
    (AMRDatasetTokenBatcherAndLoader.init c8Dataset 10 7 false false) 0 _ rfl

/-- C9: when epoch-level shuffling is enabled, `random.shuffle` reorders only the
materialized sequence of groups; collating any group reads out exactly its ids in
their original within-group order, so the sequence of collated id-groups is a
permutation (group-by-group, contents untouched) of the sampler's output. -/
theorem c9_shuffle_reorders_groups_only (L Lnow : AMRDatasetTokenBatcherAndLoader)
    (shuffled : List Nat) (eps : List (List Sample)) (hflag : L.shuffle = true)
    (hperm : eps.Perm ((L.sampler shuffled).map (fun b => b.map L.dataset.getItem))) :
    ((L.iterRecords shuffled eps).map
        (fun b => (Lnow.dataset.collate_fn b Lnow.device).ids)).Perm
      (L.sampler shuffled) := by
  have hrec : L.iterRecords shuffled eps = eps := by
    simp [AMRDatasetTokenBatcherAndLoader.iterRecords, hflag]
  rw [hrec]
  have hmap := hperm.map (fun b => (Lnow.dataset.collate_fn b Lnow.device).ids)
  refine hmap.trans ?_
  have : ((L.sampler shuffled).map (fun b => b.map L.dataset.getItem)).map
      (fun b => (Lnow.dataset.collate_fn b Lnow.device).ids) = L.sampler shuffled := by
    rw [List.map_map]
    have hfun : (fun b => (Lnow.dataset.collate_fn b Lnow.device).ids) ∘
        (fun b => b.map L.dataset.getItem) = fun b : List Nat => b := by
      funext b
      show ((b.map L.dataset.getItem).map Sample.id) = b
      rw [List.map_map]
      exact List.map_id b
    rw [hfun]
    exact List.map_id _
  rw [this]

theorem c9_witness :
    c9Loader.shuffle = true ∧
      ((c9Loader.iterRecords [0] [[c9Dataset.getItem 0]]).map
          (fun b => (c9Loader.dataset.collate_fn b c9Loader.device).ids)).Perm
        (c9Loader.sampler [0]) :=
  ⟨rfl, c9_shuffle_reorders_groups_only c9Loader c9Loader [0] [[c9Dataset.getItem 0]]
    rfl (by decide)⟩

end SpringAMR
